import Mathlib

/-!
Shallow embedding of the RSS worker (`backend_worker.py`, `ai_processor.py`)
for verification of its specification.

Modelling conventions:
* Python strings are `List Char` (`Str`); `str.strip()` is `trim`.
* Timestamps (timezone-aware `datetime` values) are `Int`.  The worker stores
  `last_fetch_time` as an ISO string produced by `isoformat()` and reads it
  back with `fromisoformat`, which round-trips exactly, so the stored value is
  modelled as the timestamp itself (`Option Int`).
* The RFC-2822 date parser `email.utils.parsedate_to_datetime` (standard
  library, external to the repo) together with the assumed-UTC fix-up is an
  abstract parameter `parse : Str → Option Int`; the wrapper logic of
  `_parse_rss_datetime` (empty/whitespace and exception handling) is embedded.
* The network fetch and XML parsing are external; one feed is modelled as the
  list of matched `item`/`entry` nodes, each an `Entry` record holding the
  elements the loop body of `_fetch_rss_items` selects (lines 72-97).
* The scorer boundary is `Scorer : Str → Str → Except Unit Int`; `Except.error`
  models `score_article` raising.
* A cycle that raises anywhere is caught by `run_task`, which persists
  nothing; such a cycle is modelled as the identity on the database record.
-/

namespace Worker

/-- Python strings, modelled as character lists. -/
abbrev Str := List Char

/-- ASCII whitespace, as stripped by Python `str.strip()`. -/
def isSpaceChar (c : Char) : Bool :=
  c = ' ' || c = '\t' || c = '\n' || c = '\r' || c = '\x0b' || c = '\x0c'

/-- Python `str.strip()`: drop whitespace at both ends. -/
def trim (s : Str) : Str :=
  ((s.dropWhile isSpaceChar).reverse.dropWhile isSpaceChar).reverse

/-- One item dictionary built by `_fetch_rss_items` (its `_dt` field is the
timestamp; the `published_at` ISO string is derivable from it). -/
@[ext]
structure Item where
  title : Str
  link : Str
  summary : Str
  publishedAt : Int
deriving DecidableEq, Repr

instance : Inhabited Item := ⟨⟨[], [], [], 0⟩⟩

/-- Identity key, line 135: `(it.get("link") or "").strip() or it.get("title", "")`. -/
def idKey (it : Item) : Str :=
  if trim it.link = [] then it.title else trim it.link

/-- A `<link>` element: its text and its `href` attribute (`""` when absent). -/
structure LinkEl where
  text : Str
  href : Str
deriving DecidableEq, Repr

/-- A description/summary/content element: its direct text, the text content of
its whole subtree (`ElementTree.tostring(..., method="text")`), and whether it
has child elements (`len(desc_el)` truthy). -/
structure DescEl where
  text : Str
  childrenText : Str
  hasChildren : Bool
deriving DecidableEq, Repr

/-- One `item`/`entry` node as seen by the loop body of `_fetch_rss_items`:
the elements selected by the find-chains of lines 72-75.  `none` means the
element was not found; a found element's `text` of Python `None` is collapsed
to `""` (the code does so via `or ""`), except for `pubDate`, where `None`
text and a missing element both yield `None` and are parsed identically. -/
structure Entry where
  title : Option Str
  link : Option LinkEl
  desc : Option DescEl
  pubDate : Option Str
deriving DecidableEq, Repr

/-- Line 77: `title = (title_el.text or "").strip() if title_el is not None else ""`. -/
def entryTitle (e : Entry) : Str :=
  match e.title with
  | some t => trim t
  | none => []

/-- Lines 78-80: the link element's stripped text, falling back to its
unstripped `href` attribute when the text is empty. -/
def entryLink (e : Entry) : Str :=
  match e.link with
  | none => []
  | some l => if trim l.text = [] then l.href else trim l.text

/-- Lines 81-83: the description element's stripped text; when that is empty
and the element has children, the stripped subtree text truncated to 500
characters. -/
def entrySummary (e : Entry) : Str :=
  match e.desc with
  | none => []
  | some d =>
    if trim d.text = [] ∧ d.hasChildren then (trim d.childrenText).take 500
    else trim d.text

/-- `_parse_rss_datetime` (lines 39-49): `None`/empty/whitespace-only input
yields `None`; otherwise the stripped string goes to the RFC-2822 parser
`parse` (abstract; it returns `none` on `ValueError`/`TypeError` and already
includes the assume-UTC fix-up for naive dates). -/
def parseRssDatetime (parse : Str → Option Int) (s : Option Str) : Option Int :=
  match s with
  | none => none
  | some t => if trim t = [] then none else parse (trim t)

/-- Loop body of `_fetch_rss_items` (lines 77-97) for one node: drop the entry
when the date is missing/unparseable, when `pub_dt <= after`, or when the
title is empty; otherwise build the item dictionary. -/
def mkFetchedItem (parse : Str → Option Int) (after : Int) (e : Entry) : Option Item :=
  match parseRssDatetime parse e.pubDate with
  | none => none
  | some d =>
    if d ≤ after then none
    else if entryTitle e = [] then none
    else some ⟨entryTitle e, entryLink e, entrySummary e, d⟩

/-- `_fetch_rss_items` after a successful fetch and XML parse: the items
collected from the feed's `item`/`entry` nodes. -/
def fetchItems (parse : Str → Option Int) (after : Int) (entries : List Entry) : List Item :=
  entries.filterMap (mkFetchedItem parse after)

/-- First-match lookup in the association list modelling the Python dict
`by_link` (dict keys are unique, so first match is the match). -/
def lookupKey : List (Str × Item) → Str → Option Item
  | [], _ => none
  | p :: ps, k => if p.1 = k then some p.2 else lookupKey ps k

/-- One iteration of the dedup loop (lines 134-137): skip an empty key; insert
a new key at the end (Python dicts append new keys); replace the stored item
in place when the new one has a strictly later `_dt`.  (Every item built by
`_fetch_rss_items` carries a datetime `_dt`, and datetimes are always truthy,
so the `it.get("_dt")` guard and the `datetime.min` default are vacuous.) -/
def insertItem (m : List (Str × Item)) (it : Item) : List (Str × Item) :=
  if idKey it = [] then m
  else
    match lookupKey m (idKey it) with
    | none => m ++ [(idKey it, it)]
    | some old =>
      if old.publishedAt < it.publishedAt then
        m.map (fun p => if p.1 = idKey it then (idKey it, it) else p)
      else m

/-- The `by_link` dict after the dedup loop over `all_items`. -/
def mergeMap (xs : List Item) : List (Str × Item) :=
  xs.foldl insertItem []

/-- Line 138: `all_items = list(by_link.values())`. -/
def merge (xs : List Item) : List Item :=
  (mergeMap xs).map (·.2)

/-- Spec-side combining function: of two items with one identity key, keep the
one with the later `publishedAt`; on an exact tie keep the first-seen one. -/
def pickLater (a b : Item) : Item :=
  if a.publishedAt < b.publishedAt then b else a

/-- `pickLater` folded over an optional accumulator. -/
def pickLaterO (acc : Option Item) (y : Item) : Option Item :=
  match acc with
  | none => some y
  | some a => some (pickLater a y)

/-- A persisted article dictionary (lines 155-161). -/
structure Article where
  title : Str
  link : Str
  summary : Str
  publishedAt : Int
  score : Int
deriving DecidableEq, Repr

/-- The stored `database.json` record: the two schema fields plus any other
top-level keys (`extra`) a previously stored record may carry; the worker
reads only the two schema fields. -/
@[ext]
structure DbRecord where
  lastFetchTime : Option Int
  articles : List Article
  extra : List (String × String)
deriving DecidableEq, Repr

/-- The top-level keys of the record as serialized by `json.dump`: the dict
literal of lines 164-167 always contains exactly `last_fetch_time` and
`articles`, followed by whatever other keys the record holds. -/
def topKeys (r : DbRecord) : List String :=
  "last_fetch_time" :: "articles" :: r.extra.map (·.1)

/-- The scorer boundary: `score_article(title, summary)`, which may raise. -/
abbrev Scorer := Str → Str → Except Unit Int

/-- Lines 149-152: the score used for an item; a raised exception is treated
as score 0. -/
def effScore (scorer : Scorer) (it : Item) : Int :=
  match scorer it.title it.summary with
  | Except.ok s => s
  | Except.error _ => 0

/-- The article dictionary appended at lines 155-161. -/
def mkArticle (it : Item) (s : Int) : Article :=
  ⟨it.title, it.link, it.summary, it.publishedAt, s⟩

/-- One iteration of the scoring loop (lines 146-161): skip when the score is
`<= 80`, else append the article. -/
def scoreStep (scorer : Scorer) (acc : List Article) (it : Item) : List Article :=
  if effScore scorer it ≤ 80 then acc else acc ++ [mkArticle it (effScore scorer it)]

/-- `_get_cutoff` (lines 101-111): the stored `last_fetch_time` when present
(ISO strings written by the worker always parse back), else `now - 24h`,
passed in as `defaultCutoff`. -/
def getCutoff (defaultCutoff : Int) (lastFetch : Option Int) : Int :=
  match lastFetch with
  | some t => t
  | none => defaultCutoff

/-- Lines 128-130: fetch every configured source with the cutoff and
concatenate the results. -/
def cycleFetched (parse : Str → Option Int) (defaultCutoff : Int)
    (sources : List (List Entry)) (db : DbRecord) : List Item :=
  (sources.map (fetchItems parse (getCutoff defaultCutoff db.lastFetchTime))).flatten

/-- Lines 132-138: the deduplicated item list of one cycle. -/
def cycleMerged (parse : Str → Option Int) (defaultCutoff : Int)
    (sources : List (List Entry)) (db : DbRecord) : List Item :=
  merge (cycleFetched parse defaultCutoff sources db)

/-- Lines 140-144: `latest_time`, the running maximum of `_dt` over the
deduplicated items (each carries a datetime, and datetimes are truthy, so the
`if pub_dt:` guard always passes). -/
def latestTime (items : List Item) : Option Int :=
  items.foldl
    (fun acc it =>
      match acc with
      | none => some it.publishedAt
      | some t => some (max t it.publishedAt))
    none

/-- `_run_task_impl` (lines 122-167) at the record level: load, cutoff, fetch,
dedupe, track latest, score-and-append, and the record handed to `_save_json`
(the dict literal of lines 164-167, which carries exactly the two schema
keys). -/
def runTaskImpl (parse : Str → Option Int) (scorer : Scorer) (defaultCutoff : Int)
    (sources : List (List Entry)) (db : DbRecord) : DbRecord :=
  let allItems := cycleMerged parse defaultCutoff sources db
  let newArticles := allItems.foldl (scoreStep scorer) db.articles
  let newLast :=
    match latestTime allItems with
    | some t => some t
    | none => db.lastFetchTime
  ⟨newLast, newArticles, []⟩

/-- The inputs of one cycle: the abstract date parser, the scorer, the default
cutoff (`now - 24h` at cycle start) and the entries of each configured feed. -/
structure CycleIn where
  parse : Str → Option Int
  scorer : Scorer
  defaultCutoff : Int
  sources : List (List Entry)

/-- `run_task` (lines 114-119): a cycle that raises anywhere is caught and
persists nothing (`none` input models a failed cycle). -/
def runTask (inp : Option CycleIn) (db : DbRecord) : DbRecord :=
  match inp with
  | none => db
  | some c => runTaskImpl c.parse c.scorer c.defaultCutoff c.sources db

/-- A sequence of cycles, each succeeding or failing. -/
def runCycles (inps : List (Option CycleIn)) (db : DbRecord) : DbRecord :=
  inps.foldl (fun d i => runTask i d) db

/-- Ordering on optional timestamps: monotone non-decreasing means a present
timestamp never decreases and never becomes absent. -/
def leOpt (a b : Option Int) : Prop :=
  ∀ t, a = some t → ∃ u, b = some u ∧ t ≤ u

/-- `score_article` as shipped in `ai_processor.py` (lines 12-17): returns 0
for every input and never raises. -/
def shippedScorer : Scorer :=
  fun _ _ => Except.ok 0

/-- One iteration of the polling loop body of `main` (lines 173-188), mapping
the read outcome (`Except.error` = an exception inside the `try`, reading
`status.json` or converting; `run_task` catches its own exceptions) and the
remembered `was_running` to the new `was_running` and whether `run_task` was
invoked. -/
def pollOnce (reading : Except Unit Bool) (was : Bool) : Bool × Bool :=
  match reading with
  | Except.error _ => (false, false)
  | Except.ok false => (false, false)
  | Except.ok true => (true, !was)

/-- Fold the polling loop over a list of readings, counting invocations. -/
def pollRun (readings : List (Except Unit Bool)) (was : Bool) : Bool × Nat :=
  readings.foldl
    (fun st r =>
      ((pollOnce r st.1).1, st.2 + (if (pollOnce r st.1).2 then 1 else 0)))
    (was, 0)

/-- `_save_json` (lines 33-36): `open(path, "w")` truncates the file in place,
then `json.dump` streams the serialized text into it.  The observable file
contents over time: the prior contents, then the empty file, then every prefix
of the serialized text. -/
def saveJsonStates (prior serialized : Str) : List Str :=
  prior :: (List.range (serialized.length + 1)).map (fun n => serialized.take n)

/-- The atomicity the spec and the docstring of `_save_json` promise: at every
instant a reader sees either the prior snapshot or the fully written new one. -/
def AtomicSave (prior serialized : Str) : Prop :=
  ∀ s ∈ saveJsonStates prior serialized, s = prior ∨ s = serialized

/-- Well-formedness of the dedup dict: every entry is stored under the
(non-empty) identity key of its item, and keys are unique. -/
def WFmap (m : List (Str × Item)) : Prop :=
  (∀ p ∈ m, p.1 = idKey p.2 ∧ p.1 ≠ []) ∧ (m.map (·.1)).Nodup

/-- The items of one cycle kept by the scoring loop (score strictly above the
fixed threshold 80). -/
def cycleKept (parse : Str → Option Int) (scorer : Scorer) (defaultCutoff : Int)
    (sources : List (List Entry)) (db : DbRecord) : List Item :=
  (cycleMerged parse defaultCutoff sources db).filter
    (fun it => 80 < effScore scorer it)

/-- A concrete RFC-2822 parser for witnesses: the string `x` denotes 10. -/
def cParse : Str → Option Int :=
  fun s => if s = ['x'] then some 10 else none

/-- A 501-character description text. -/
def longText : Str := List.replicate 501 'a'

/-- A feed entry whose description's direct text is 501 characters long. -/
def entryC2 : Entry := ⟨some ['T'], none, some ⟨longText, [], false⟩, some ['x']⟩

/-- A minimal valid feed entry for witnesses. -/
def entryW : Entry := ⟨some ['T'], none, none, some ['x']⟩

/-- The item `_fetch_rss_items` builds from `entryW` past cutoff 0. -/
def itW : Item := ⟨['T'], [], [], 10⟩

/-- A scorer that raises on every input. -/
def failScorer : Scorer := fun _ _ => Except.error ()

/-- A database record with one persisted article, for witnesses. -/
def dbW : DbRecord := ⟨none, [⟨['T'], [], [], 0, 90⟩], []⟩

/-- A database record with a stored fetch time, for witnesses. -/
def dbM : DbRecord := ⟨some 5, [], []⟩

/-- A database record carrying an unknown top-level key, for witnesses. -/
def dbC10 : DbRecord := ⟨none, [], [("source", "x")]⟩

/-! ## Supporting lemmas -/

/-- The scoring loop appends, in merged order, exactly the items scoring
strictly above 80, each as the article built at lines 155-161. -/
theorem foldl_scoreStep_eq (scorer : Scorer) :
    ∀ (xs : List Item) (acc : List Article),
      xs.foldl (scoreStep scorer) acc =
        acc ++ (xs.filter (fun it => 80 < effScore scorer it)).map
          (fun it => mkArticle it (effScore scorer it)) := by
  intro xs
  induction xs with
  | nil => intro acc; simp
  | cons x xs ih =>
    intro acc
    rw [List.foldl_cons, ih, List.filter_cons]
    by_cases h : 80 < effScore scorer x
    · simp [scoreStep, not_le.mpr h, h]
    · simp [scoreStep, not_lt.mp h, h]

theorem lookupKey_eq_none_iff (m : List (Str × Item)) (k : Str) :
    lookupKey m k = none ↔ k ∉ m.map (·.1) := by
  induction m with
  | nil => simp [lookupKey]
  | cons p ps ih =>
    by_cases h : p.1 = k
    · simp [lookupKey, h]
    · have h2 : ¬ (k = p.1) := fun hh => h hh.symm
      simp [lookupKey, h, h2, ih]

theorem lookupKey_append_single (m : List (Str × Item)) (k : Str) (it : Item) (q : Str) :
    lookupKey (m ++ [(k, it)]) q =
      match lookupKey m q with
      | some v => some v
      | none => if k = q then some it else none := by
  induction m with
  | nil => simp [lookupKey]
  | cons p ps ih =>
    by_cases h : p.1 = q
    · simp [lookupKey, h]
    · simp [lookupKey, h, ih]

theorem lookupKey_map_replace (m : List (Str × Item)) (k : Str) (it : Item) (q : Str) :
    lookupKey (m.map (fun p => if p.1 = k then (k, it) else p)) q =
      if q = k then
        match lookupKey m k with
        | some _ => some it
        | none => none
      else lookupKey m q := by
  induction m with
  | nil => by_cases h : q = k <;> simp [lookupKey, h]
  | cons p ps ih =>
    by_cases hpk : p.1 = k
    · by_cases hqk : q = k
      · simp [lookupKey, hpk, hqk]
      · have : ¬ (k = q) := fun h => hqk h.symm
        simp [lookupKey, hpk, hqk, this, ih]
    · by_cases hpq : p.1 = q
      · have hqk : ¬ (q = k) := fun h => hpk (h ▸ hpq)
        simp [lookupKey, hpk, hpq, hqk]
      · simp [lookupKey, hpk, hpq, ih]

theorem lookupKey_insertItem (m : List (Str × Item)) (it : Item) (k : Str) (hk : k ≠ []) :
    lookupKey (insertItem m it) k =
      if idKey it = k then pickLaterO (lookupKey m k) it else lookupKey m k := by
  unfold insertItem
  by_cases h0 : idKey it = []
  · have : idKey it ≠ k := fun h => hk (h ▸ h0)
    simp [h0, this, hk]
  · simp only [h0, if_false]
    cases hl : lookupKey m (idKey it) with
    | none =>
      rw [lookupKey_append_single]
      by_cases hik : idKey it = k
      · subst hik
        simp [hl, pickLaterO]
      · have : ¬ (idKey it = k) := hik
        cases hq : lookupKey m k <;> simp [hq, this, hik]
    | some old =>
      by_cases hlt : old.publishedAt < it.publishedAt
      · simp only [hlt, if_true]
        rw [lookupKey_map_replace]
        by_cases hik : idKey it = k
        · subst hik
          simp [hl, pickLaterO, pickLater, hlt]
        · have hki : ¬ (k = idKey it) := fun h => hik h.symm
          simp [hik, hki]
      · simp only [hlt, if_false]
        by_cases hik : idKey it = k
        · subst hik
          simp [hl, pickLaterO, pickLater, hlt]
        · simp [hik]

theorem wfMap_insertItem (m : List (Str × Item)) (it : Item) (h : WFmap m) :
    WFmap (insertItem m it) := by
  obtain ⟨hkeys, hnd⟩ := h
  unfold insertItem
  by_cases h0 : idKey it = []
  · simpa [h0] using ⟨hkeys, hnd⟩
  · simp only [h0, if_false]
    cases hl : lookupKey m (idKey it) with
    | none =>
      constructor
      · intro p hp
        rcases List.mem_append.mp hp with hp | hp
        · exact hkeys p hp
        · rcases List.mem_singleton.mp hp with rfl
          exact ⟨rfl, h0⟩
      · rw [List.map_append]
        rw [List.nodup_append]
        refine ⟨hnd, List.nodup_singleton _, ?_⟩
        intro a ha hb
        rcases List.mem_singleton.mp hb with rfl
        exact (lookupKey_eq_none_iff m (idKey it)).mp hl ha
    | some old =>
      by_cases hlt : old.publishedAt < it.publishedAt
      · simp only [hlt, if_true]
        constructor
        · intro p hp
          rcases List.mem_map.mp hp with ⟨q, hq, hpq⟩
          by_cases hqk : q.1 = idKey it
          · rw [← hpq]
            simp [hqk, h0]
          · rw [← hpq]
            simp only [hqk, if_false]
            exact hkeys q hq
        · have hfix : (m.map (fun p => if p.1 = idKey it then (idKey it, it) else p)).map (·.1) =
              m.map (·.1) := by
            rw [List.map_map]
            apply List.map_congr_left
            intro p _
            by_cases hq : p.1 = idKey it <;> simp [hq]
          rw [hfix]
          exact hnd
      · simpa [hlt] using ⟨hkeys, hnd⟩

theorem wfMap_foldl (xs : List Item) :
    ∀ (m : List (Str × Item)), WFmap m → WFmap (xs.foldl insertItem m) := by
  induction xs with
  | nil => intro m hm; simpa using hm
  | cons x xs ih =>
    intro m hm
    rw [List.foldl_cons]
    exact ih _ (wfMap_insertItem m x hm)

theorem wfMap_nil : WFmap [] := by
  constructor
  · intro p hp; cases hp
  · simp

theorem lookupKey_foldl_insertItem (k : Str) (hk : k ≠ []) :
    ∀ (xs : List Item) (m : List (Str × Item)), WFmap m →
      lookupKey (xs.foldl insertItem m) k =
        (xs.filter (fun it => idKey it = k)).foldl pickLaterO (lookupKey m k) := by
  intro xs
  induction xs with
  | nil => intro m _; simp
  | cons x xs ih =>
    intro m hm
    rw [List.foldl_cons, ih _ (wfMap_insertItem m x hm), List.filter_cons]
    by_cases hx : idKey x = k
    · simp [hx, lookupKey_insertItem m x k hk]
    · simp [hx, lookupKey_insertItem m x k hk]

theorem insertItem_mem (m : List (Str × Item)) (it : Item) (p : Str × Item)
    (hp : p ∈ insertItem m it) : p ∈ m ∨ p.2 = it := by
  unfold insertItem at hp
  by_cases h0 : idKey it = []
  · simp only [h0, if_true] at hp
    exact Or.inl hp
  · simp only [h0, if_false] at hp
    cases hl : lookupKey m (idKey it) with
    | none =>
      rw [hl] at hp
      rcases List.mem_append.mp hp with hp | hp
      · exact Or.inl hp
      · rcases List.mem_singleton.mp hp with rfl
        exact Or.inr rfl
    | some old =>
      rw [hl] at hp
      by_cases hlt : old.publishedAt < it.publishedAt
      · simp only [hlt, if_true] at hp
        rcases List.mem_map.mp hp with ⟨q, hq, hpq⟩
        by_cases hqk : q.1 = idKey it
        · rw [← hpq]; simp [hqk]
        · rw [← hpq]; simp only [hqk, if_false]; exact Or.inl hq
      · simp only [hlt, if_false] at hp
        exact Or.inl hp

theorem mem_foldl_insertItem (xs : List Item) :
    ∀ (m : List (Str × Item)) (p : Str × Item),
      p ∈ xs.foldl insertItem m → p ∈ m ∨ p.2 ∈ xs := by
  induction xs with
  | nil => intro m p hp; exact Or.inl hp
  | cons x xs ih =>
    intro m p hp
    rw [List.foldl_cons] at hp
    rcases ih _ p hp with hp | hp
    · rcases insertItem_mem m x p hp with hp | hp
      · exact Or.inl hp
      · exact Or.inr (by simp [hp])
    · exact Or.inr (List.mem_cons_of_mem _ hp)

theorem mem_merge (xs : List Item) (v : Item) (hv : v ∈ merge xs) : v ∈ xs := by
  rcases List.mem_map.mp hv with ⟨p, hp, hpv⟩
  rcases mem_foldl_insertItem xs [] p hp with hp | hp
  · cases hp
  · exact hpv ▸ hp

theorem insertItem_ne_nil (m : List (Str × Item)) (it : Item) (hm : m ≠ []) :
    insertItem m it ≠ [] := by
  unfold insertItem
  by_cases h0 : idKey it = []
  · simpa [h0] using hm
  · simp only [h0, if_false]
    cases lookupKey m (idKey it) with
    | none => simp
    | some old =>
      by_cases hlt : old.publishedAt < it.publishedAt
      · simpa [hlt] using hm
      · simpa [hlt] using hm

theorem foldl_insertItem_ne_nil (xs : List Item) :
    ∀ (m : List (Str × Item)), m ≠ [] → xs.foldl insertItem m ≠ [] := by
  induction xs with
  | nil => intro m hm; simpa using hm
  | cons x xs ih =>
    intro m hm
    rw [List.foldl_cons]
    exact ih _ (insertItem_ne_nil m x hm)

theorem merge_ne_nil (xs : List Item) (hne : xs ≠ [])
    (hkeys : ∀ it ∈ xs, idKey it ≠ []) : merge xs ≠ [] := by
  cases xs with
  | nil => exact absurd rfl hne
  | cons x rest =>
    have hx : idKey x ≠ [] := hkeys x (List.mem_cons_self x rest)
    have h1 : insertItem [] x = [(idKey x, x)] := by
      unfold insertItem
      simp [hx, lookupKey]
    have h2 : mergeMap (x :: rest) ≠ [] := by
      unfold mergeMap
      rw [List.foldl_cons, h1]
      exact foldl_insertItem_ne_nil rest _ (by simp)
    unfold merge
    simpa using h2

theorem latestTime_go (items : List Item) :
    ∀ (t0 : Int),
      ∃ t,
        items.foldl
            (fun acc it =>
              match acc with
              | none => some it.publishedAt
              | some u => some (max u it.publishedAt))
            (some t0) = some t ∧
        (t = t0 ∨ ∃ it ∈ items, it.publishedAt = t) ∧ t0 ≤ t ∧
        ∀ it ∈ items, it.publishedAt ≤ t := by
  induction items with
  | nil =>
    intro t0
    exact ⟨t0, rfl, Or.inl rfl, le_refl _, by simp⟩
  | cons x xs ih =>
    intro t0
    rw [List.foldl_cons]
    obtain ⟨t, ht, hmem, hle, hall⟩ := ih (max t0 x.publishedAt)
    refine ⟨t, ht, ?_, le_trans (le_max_left _ _) hle, ?_⟩
    · rcases hmem with h | ⟨it, hit, hpt⟩
      · by_cases hc : t0 ≤ x.publishedAt
        · refine Or.inr ⟨x, List.mem_cons_self x xs, ?_⟩
          rw [h, max_eq_right hc]
        · refine Or.inl ?_
          rw [h, max_eq_left (le_of_not_le hc)]
      · exact Or.inr ⟨it, List.mem_cons_of_mem x hit, hpt⟩
    · intro it hit
      rcases List.mem_cons.mp hit with rfl | hit
      · exact le_trans (le_max_right t0 it.publishedAt) hle
      · exact hall it hit

theorem latestTime_spec (items : List Item) (h : items ≠ []) :
    ∃ t, latestTime items = some t ∧ (∃ it ∈ items, it.publishedAt = t) ∧
      ∀ it ∈ items, it.publishedAt ≤ t := by
  cases items with
  | nil => exact absurd rfl h
  | cons x xs =>
    obtain ⟨t, ht, hmem, hle, hall⟩ := latestTime_go xs x.publishedAt
    refine ⟨t, ?_, ?_, ?_⟩
    · unfold latestTime
      rw [List.foldl_cons]
      exact ht
    · rcases hmem with h | ⟨it, hit, hpt⟩
      · exact ⟨x, List.mem_cons_self x xs, h.symm ▸ rfl⟩
      · exact ⟨it, List.mem_cons_of_mem x hit, hpt⟩
    · intro it hit
      rcases List.mem_cons.mp hit with rfl | hit
      · exact hle
      · exact hall it hit

theorem latestTime_some (items : List Item) (u : Int) (h : latestTime items = some u) :
    ∃ it ∈ items, it.publishedAt = u := by
  cases items with
  | nil => exact absurd h (by simp [latestTime])
  | cons x xs =>
    obtain ⟨t, ht, hmem, _⟩ := latestTime_spec (x :: xs) (by simp)
    rw [ht] at h
    cases h
    exact hmem

theorem mem_fetchItems (parse : Str → Option Int) (after : Int) (entries : List Entry)
    (it : Item) (h : it ∈ fetchItems parse after entries) :
    after < it.publishedAt ∧ it.title ≠ [] := by
  rcases List.mem_filterMap.mp h with ⟨e, _, hmk⟩
  unfold mkFetchedItem at hmk
  cases hp : parseRssDatetime parse e.pubDate with
  | none =>
    rw [hp] at hmk
    exact Option.noConfusion hmk
  | some d =>
    rw [hp] at hmk
    have hmk2 : (if d ≤ after then none
        else if entryTitle e = [] then none
        else some (⟨entryTitle e, entryLink e, entrySummary e, d⟩ : Item)) = some it := hmk
    by_cases hd : d ≤ after
    · rw [if_pos hd] at hmk2; cases hmk2
    · by_cases ht : entryTitle e = []
      · rw [if_neg hd, if_pos ht] at hmk2; cases hmk2
      · rw [if_neg hd, if_neg ht] at hmk2
        cases hmk2
        exact ⟨lt_of_not_le hd, ht⟩

theorem mem_cycleFetched (parse : Str → Option Int) (defaultCutoff : Int)
    (sources : List (List Entry)) (db : DbRecord) (it : Item)
    (h : it ∈ cycleFetched parse defaultCutoff sources db) :
    getCutoff defaultCutoff db.lastFetchTime < it.publishedAt ∧ it.title ≠ [] := by
  unfold cycleFetched at h
  rcases List.mem_flatten.mp h with ⟨l, hl, hit⟩
  rcases List.mem_map.mp hl with ⟨src, _, rfl⟩
  exact mem_fetchItems _ _ _ _ hit

theorem idKey_ne_nil (it : Item) (h : it.title ≠ []) : idKey it ≠ [] := by
  unfold idKey
  by_cases hl : trim it.link = [] <;> simp [hl, h]

theorem runTaskImpl_articles (parse : Str → Option Int) (scorer : Scorer)
    (defaultCutoff : Int) (sources : List (List Entry)) (db : DbRecord) :
    (runTaskImpl parse scorer defaultCutoff sources db).articles =
      db.articles ++ (cycleKept parse scorer defaultCutoff sources db).map
        (fun it => mkArticle it (effScore scorer it)) :=
  foldl_scoreStep_eq scorer (cycleMerged parse defaultCutoff sources db) db.articles

theorem runTaskImpl_lastFetchTime (parse : Str → Option Int) (scorer : Scorer)
    (defaultCutoff : Int) (sources : List (List Entry)) (db : DbRecord) :
    (runTaskImpl parse scorer defaultCutoff sources db).lastFetchTime =
      match latestTime (cycleMerged parse defaultCutoff sources db) with
      | some t => some t
      | none => db.lastFetchTime := rfl

theorem runTaskImpl_extra (parse : Str → Option Int) (scorer : Scorer)
    (defaultCutoff : Int) (sources : List (List Entry)) (db : DbRecord) :
    (runTaskImpl parse scorer defaultCutoff sources db).extra = [] := rfl

theorem leOpt_refl (a : Option Int) : leOpt a a :=
  fun t ht => ⟨t, ht, le_refl t⟩

theorem leOpt_trans {a b c : Option Int} (h1 : leOpt a b) (h2 : leOpt b c) : leOpt a c := by
  intro t ht
  obtain ⟨u, hu, htu⟩ := h1 t ht
  obtain ⟨v, hv, huv⟩ := h2 u hu
  exact ⟨v, hv, le_trans htu huv⟩

theorem runTaskImpl_mono (parse : Str → Option Int) (scorer : Scorer)
    (defaultCutoff : Int) (sources : List (List Entry)) (db : DbRecord) :
    leOpt db.lastFetchTime (runTaskImpl parse scorer defaultCutoff sources db).lastFetchTime := by
  intro t ht
  rw [runTaskImpl_lastFetchTime]
  cases hlt : latestTime (cycleMerged parse defaultCutoff sources db) with
  | none => exact ⟨t, ht, le_refl t⟩
  | some u =>
    refine ⟨u, rfl, ?_⟩
    obtain ⟨it, hit, hpu⟩ := latestTime_some _ u hlt
    unfold cycleMerged at hit
    have hmem := mem_merge _ it hit
    have hgt := (mem_cycleFetched parse defaultCutoff sources db it hmem).1
    rw [ht] at hgt
    rw [← hpu]
    exact le_of_lt (by simpa [getCutoff] using hgt)

theorem runTask_mono (i : Option CycleIn) (db : DbRecord) :
    leOpt db.lastFetchTime (runTask i db).lastFetchTime := by
  cases i with
  | none => exact leOpt_refl _
  | some c => exact runTaskImpl_mono c.parse c.scorer c.defaultCutoff c.sources db

theorem runTask_articles_grow (i : Option CycleIn) (db : DbRecord) :
    db.articles <+: (runTask i db).articles := by
  cases i with
  | none => exact List.prefix_refl _
  | some c =>
    rw [runTask, runTaskImpl_articles]
    exact List.prefix_append _ _

theorem runCycles_mono (inps : List (Option CycleIn)) :
    ∀ db : DbRecord, leOpt db.lastFetchTime (runCycles inps db).lastFetchTime := by
  induction inps with
  | nil => intro db; exact leOpt_refl _
  | cons i inps ih =>
    intro db
    exact leOpt_trans (runTask_mono i db) (ih (runTask i db))

theorem runCycles_articles_grow (inps : List (Option CycleIn)) :
    ∀ db : DbRecord, db.articles <+: (runCycles inps db).articles := by
  induction inps with
  | nil => intro db; exact List.prefix_refl _
  | cons i inps ih =>
    intro db
    exact (runTask_articles_grow i db).trans (ih (runTask i db))

/-! ## Claim theorems -/

/-- Claim C1 (code bug): the spec and the docstring of `_save_json` promise an
atomic write, but the implementation truncates the file in place with
`open(path, "w")` before `json.dump` streams the new contents, so during the
write the file holds the empty string — a state that is neither the prior
snapshot nor the new one.  A failure mid-write (or a concurrent reader, such
as the frontend) therefore observes a partial write and the prior snapshot is
destroyed, shown here at a concrete prior snapshot and payload. -/
theorem c1__save_json_not_atomic :
    [] ∈ saveJsonStates (['o', 'l', 'd']) (['n', 'e', 'w']) ∧
    ¬ AtomicSave (['o', 'l', 'd']) (['n', 'e', 'w']) := by
  refine ⟨by decide, fun h => ?_⟩
  rcases h [] (by decide) with h2 | h2 <;> exact absurd h2 (by decide)

set_option maxRecDepth 4000 in
/-- Claim C2 (counterexample): `_fetch_rss_items` produces an item whose
summary is 501 characters long.  The `[:500]` truncation at line 83 applies
only to the fallback summary assembled from child elements; the direct
`desc_el.text` path of line 81 is not truncated. -/
theorem c2__counterexample :
    (fetchItems cParse 0 [entryC2]).map (fun it => it.summary.length) = [501] := by
  decide

/-- Claim C2 (amended): only the fallback summary — extracted from the
description element's children when its direct text is empty — is truncated
to at most 500 characters; a summary taken from the element's direct text is
not truncated. -/
theorem c2__fallback_summary_truncated :
    ∀ (e : Entry) (d : DescEl), e.desc = some d → trim d.text = [] →
      d.hasChildren = true → (entrySummary e).length ≤ 500 := by
  intro e d hd ht hc
  unfold entrySummary
  rw [hd]
  simp only [ht, hc, and_self, if_true]
  rw [List.length_take]
  exact min_le_left _ _

theorem c2__fallback_summary_truncated_witness :
    (entrySummary ⟨none, none, some ⟨[], ['b'], true⟩, none⟩).length ≤ 500 :=
  c2__fallback_summary_truncated ⟨none, none, some ⟨[], ['b'], true⟩, none⟩
    ⟨[], ['b'], true⟩ rfl rfl rfl

/-- Claim C3: the monitor is edge-triggered — one poll iteration invokes
`run_task` exactly when it reads `is_running = true` while the remembered
`was_running` is false (a read error resets the remembered state and never
triggers), and holding `is_running = true` across 5 consecutive polls invokes
`run_task` exactly once. -/
theorem c3__edge_triggered :
    (∀ (reading : Except Unit Bool) (was : Bool),
        (pollOnce reading was).2 = true ↔ reading = Except.ok true ∧ was = false) ∧
    (pollRun (List.replicate 5 (Except.ok true)) false).2 = 1 := by
  constructor
  · intro reading was
    cases reading with
    | error e => cases e; cases was <;> simp [pollOnce]
    | ok b => cases b <;> cases was <;> simp [pollOnce]
  · rfl

theorem c3__edge_triggered_witness :
    (pollOnce (Except.ok true) false).2 = true ∧
    (pollRun (List.replicate 5 (Except.ok true)) false).2 = 1 :=
  ⟨(c3__edge_triggered.1 (Except.ok true) false).mpr ⟨rfl, rfl⟩, c3__edge_triggered.2⟩

/-- Claim C9: with the scorer as shipped in `ai_processor.py` (it returns 0
for every input), no cycle ever appends an article: the articles sequence is
unchanged and, on a record carrying only the two schema keys, the whole
record can differ only in `lastFetchTime`. -/
theorem c9__shipped_scorer_no_appends :
    ∀ (parse : Str → Option Int) (defaultCutoff : Int) (sources : List (List Entry))
      (db : DbRecord),
      (runTaskImpl parse shippedScorer defaultCutoff sources db).articles = db.articles ∧
      (db.extra = [] →
        runTaskImpl parse shippedScorer defaultCutoff sources db =
          { db with lastFetchTime :=
              (runTaskImpl parse shippedScorer defaultCutoff sources db).lastFetchTime }) := by
  intro parse dc sources db
  have hkept : cycleKept parse shippedScorer dc sources db = [] := by
    unfold cycleKept
    apply List.filter_eq_nil_iff.mpr
    intro it _
    simp [effScore, shippedScorer]
  have harts : (runTaskImpl parse shippedScorer dc sources db).articles = db.articles := by
    rw [runTaskImpl_articles, hkept]
    simp
  refine ⟨harts, fun hextra => ?_⟩
  apply DbRecord.ext
  · simp
  · simpa using harts
  · simpa [runTaskImpl_extra] using hextra.symm

theorem c9__witness :
    (runTaskImpl cParse shippedScorer 0 [] dbM).articles = dbM.articles ∧
    runTaskImpl cParse shippedScorer 0 [] dbM =
      { dbM with lastFetchTime := (runTaskImpl cParse shippedScorer 0 [] dbM).lastFetchTime } :=
  ⟨(c9__shipped_scorer_no_appends cParse 0 [] dbM).1,
   (c9__shipped_scorer_no_appends cParse 0 [] dbM).2 rfl⟩

/-- Claim C10: the record a successful cycle hands to `_save_json` carries
exactly the two top-level keys `last_fetch_time` and `articles` (the dict
literal of lines 164-167); any other top-level key of the previously stored
record is not preserved. -/
theorem c10__snapshot_two_keys :
    ∀ (parse : Str → Option Int) (scorer : Scorer) (defaultCutoff : Int)
      (sources : List (List Entry)) (db : DbRecord),
      topKeys (runTaskImpl parse scorer defaultCutoff sources db) =
        ["last_fetch_time", "articles"] ∧
      (∀ kv ∈ db.extra, kv.1 ∉ ["last_fetch_time", "articles"] →
        kv.1 ∉ topKeys (runTaskImpl parse scorer defaultCutoff sources db)) := by
  intro parse scorer dc sources db
  have hext : (runTaskImpl parse scorer dc sources db).extra = [] :=
    runTaskImpl_extra parse scorer dc sources db
  constructor
  · unfold topKeys
    rw [hext]
    rfl
  · intro kv _ hk
    unfold topKeys
    rw [hext]
    simpa using hk

theorem c10__witness :
    ("source", "x").1 ∉ topKeys (runTaskImpl cParse shippedScorer 0 [] dbC10) :=
  (c10__snapshot_two_keys cParse shippedScorer 0 [] dbC10).2 ("source", "x")
    (by simp [dbC10]) (by decide)

/-- Claim C6: `_fetch_rss_items` includes an entry only if its raw date string
parses to a timestamp strictly greater than the cutoff; an entry whose date
is absent or unparseable is dropped, and an entry whose timestamp equals the
cutoff is excluded (the comparison of line 86 is `pub_dt <= after`). -/
theorem c6__fetch_strict_cutoff :
    (∀ (parse : Str → Option Int) (after : Int) (entries : List Entry) (it : Item),
        it ∈ fetchItems parse after entries →
          ∃ e ∈ entries, ∃ d, parseRssDatetime parse e.pubDate = some d ∧
            after < d ∧ it.publishedAt = d) ∧
    (∀ (parse : Str → Option Int) (after : Int) (e : Entry),
        parseRssDatetime parse e.pubDate = none → mkFetchedItem parse after e = none) ∧
    (∀ (parse : Str → Option Int) (after : Int) (e : Entry),
        parseRssDatetime parse e.pubDate = some after →
          mkFetchedItem parse after e = none) := by
  refine ⟨?_, ?_, ?_⟩
  · intro parse after entries it h
    rcases List.mem_filterMap.mp h with ⟨e, he, hmk⟩
    refine ⟨e, he, ?_⟩
    unfold mkFetchedItem at hmk
    cases hp : parseRssDatetime parse e.pubDate with
    | none =>
      rw [hp] at hmk
      exact Option.noConfusion hmk
    | some d =>
      rw [hp] at hmk
      have hmk2 : (if d ≤ after then none
          else if entryTitle e = [] then none
          else some (⟨entryTitle e, entryLink e, entrySummary e, d⟩ : Item)) = some it := hmk
      by_cases hd : d ≤ after
      · rw [if_pos hd] at hmk2; cases hmk2
      · by_cases ht : entryTitle e = []
        · rw [if_neg hd, if_pos ht] at hmk2; cases hmk2
        · rw [if_neg hd, if_neg ht] at hmk2
          cases hmk2
          exact ⟨d, rfl, lt_of_not_le hd, rfl⟩
  · intro parse after e hp
    unfold mkFetchedItem
    rw [hp]
  · intro parse after e hp
    unfold mkFetchedItem
    rw [hp]
    simp

theorem c6__witness :
    ∃ e ∈ [entryW], ∃ d, parseRssDatetime cParse e.pubDate = some d ∧ (0 : Int) < d ∧
      itW.publishedAt = d :=
  c6__fetch_strict_cutoff.1 cParse 0 [entryW] itW (by decide)

/-- Claim C5: the dedup loop keys items by identity (stripped link when
non-empty, else title); no two entries of the resulting mapping share a key,
the items of the merged output carry pairwise distinct identity keys, the
entry stored under each key is the fold of first-seen-wins-on-tie /
later-publishedAt-wins over the input items with that key, and on the
two-item instance the one with the strictly later publishedAt is kept while
an exact tie keeps the first-seen one. -/
theorem c5__merge_identity_dedup :
    (∀ (xs : List Item), ((mergeMap xs).map (·.1)).Nodup) ∧
    (∀ (xs : List Item), ((merge xs).map idKey).Nodup) ∧
    (∀ (xs : List Item) (k : Str), k ≠ [] →
        lookupKey (mergeMap xs) k =
          (xs.filter (fun it => idKey it = k)).foldl pickLaterO none) ∧
    (∀ (a b : Item), idKey a = idKey b → idKey a ≠ [] →
        merge [a, b] = [if a.publishedAt < b.publishedAt then b else a]) := by
  refine ⟨?_, ?_, ?_, ?_⟩
  · intro xs
    exact (wfMap_foldl xs [] wfMap_nil).2
  · intro xs
    have hwf := wfMap_foldl xs [] wfMap_nil
    have hmaps : (merge xs).map idKey = (mergeMap xs).map (·.1) := by
      unfold merge
      rw [List.map_map]
      apply List.map_congr_left
      intro p hp
      exact ((hwf.1 p hp).1).symm
    rw [hmaps]
    exact hwf.2
  · intro xs k hk
    have h := lookupKey_foldl_insertItem k hk xs [] wfMap_nil
    simpa [lookupKey] using h
  · intro a b hab h0
    have hb0 : idKey b ≠ [] := hab ▸ h0
    have h1 : insertItem [] a = [(idKey a, a)] := by
      unfold insertItem
      simp [h0, lookupKey]
    have hlk : lookupKey [(idKey a, a)] (idKey b) = some a := by
      simp [lookupKey, hab]
    unfold merge mergeMap
    rw [List.foldl_cons, List.foldl_cons, List.foldl_nil, h1]
    unfold insertItem
    rw [hlk]
    by_cases hlt : a.publishedAt < b.publishedAt
    · simp [hb0, hlt, hab]
    · simp [hb0, hlt]

theorem c5__witness :
    lookupKey (mergeMap [itW]) (['T']) =
      ([itW].filter (fun it => idKey it = ['T'])).foldl pickLaterO none :=
  c5__merge_identity_dedup.2.2.1 [itW] (['T']) (by decide)

/-- Claim C4: `last_fetch_time` is monotonically non-decreasing across every
sequence of cycles (a present timestamp never decreases and never becomes
absent); on a cycle that fetched no item it is left unchanged, and on a cycle
with items it becomes the maximum publishedAt over the merged set. -/
theorem c4__last_fetch_time :
    (∀ (inps : List (Option CycleIn)) (db : DbRecord),
        leOpt db.lastFetchTime (runCycles inps db).lastFetchTime) ∧
    (∀ (parse : Str → Option Int) (scorer : Scorer) (defaultCutoff : Int)
        (sources : List (List Entry)) (db : DbRecord),
        cycleFetched parse defaultCutoff sources db = [] →
          (runTaskImpl parse scorer defaultCutoff sources db).lastFetchTime =
            db.lastFetchTime) ∧
    (∀ (parse : Str → Option Int) (scorer : Scorer) (defaultCutoff : Int)
        (sources : List (List Entry)) (db : DbRecord),
        cycleFetched parse defaultCutoff sources db ≠ [] →
          ∃ t, (runTaskImpl parse scorer defaultCutoff sources db).lastFetchTime = some t ∧
            (∃ it ∈ cycleMerged parse defaultCutoff sources db, it.publishedAt = t) ∧
            (∀ it ∈ cycleMerged parse defaultCutoff sources db, it.publishedAt ≤ t)) := by
  refine ⟨runCycles_mono, ?_, ?_⟩
  · intro parse scorer dc sources db h
    have hm : cycleMerged parse dc sources db = [] := by
      unfold cycleMerged
      rw [h]
      rfl
    rw [runTaskImpl_lastFetchTime, hm]
    rfl
  · intro parse scorer dc sources db hne
    have hkeys : ∀ it ∈ cycleFetched parse dc sources db, idKey it ≠ [] := by
      intro it hit
      exact idKey_ne_nil it (mem_cycleFetched parse dc sources db it hit).2
    have hmne : cycleMerged parse dc sources db ≠ [] := by
      unfold cycleMerged
      exact merge_ne_nil _ hne hkeys
    obtain ⟨t, ht, hmem, hall⟩ := latestTime_spec _ hmne
    refine ⟨t, ?_, hmem, hall⟩
    rw [runTaskImpl_lastFetchTime, ht]

theorem c4__witness :
    ∃ u, (runCycles [] dbM).lastFetchTime = some u ∧ (5 : Int) ≤ u :=
  c4__last_fetch_time.1 [] dbM 5 rfl

/-- Claim C7: the articles appended by a cycle are exactly the merged items
whose effective score is strictly above the fixed threshold 80, in merged
order; a scorer failure is treated as score 0 (the fold is total, so the
cycle continues past it), and a failed item is therefore never kept. -/
theorem c7__score_threshold :
    (∀ (parse : Str → Option Int) (scorer : Scorer) (defaultCutoff : Int)
        (sources : List (List Entry)) (db : DbRecord),
        (runTaskImpl parse scorer defaultCutoff sources db).articles =
          db.articles ++ (cycleKept parse scorer defaultCutoff sources db).map
            (fun it => mkArticle it (effScore scorer it))) ∧
    (∀ (parse : Str → Option Int) (scorer : Scorer) (defaultCutoff : Int)
        (sources : List (List Entry)) (db : DbRecord) (it : Item),
        it ∈ cycleKept parse scorer defaultCutoff sources db ↔
          it ∈ cycleMerged parse defaultCutoff sources db ∧ 80 < effScore scorer it) ∧
    (∀ (scorer : Scorer) (it : Item), scorer it.title it.summary = Except.error () →
        effScore scorer it = 0) ∧
    (∀ (parse : Str → Option Int) (scorer : Scorer) (defaultCutoff : Int)
        (sources : List (List Entry)) (db : DbRecord) (it : Item),
        scorer it.title it.summary = Except.error () →
          it ∉ cycleKept parse scorer defaultCutoff sources db) := by
  refine ⟨runTaskImpl_articles, ?_, ?_, ?_⟩
  · intro parse scorer dc sources db it
    unfold cycleKept
    simp [List.mem_filter]
  · intro scorer it h
    unfold effScore
    rw [h]
  · intro parse scorer dc sources db it h hin
    unfold cycleKept at hin
    have hgt := (List.mem_filter.mp hin).2
    have h0 : effScore scorer it = 0 := by
      unfold effScore
      rw [h]
    rw [h0] at hgt
    simp at hgt

theorem c7__witness :
    itW ∉ cycleKept cParse failScorer 0 [] dbM :=
  c7__score_threshold.2.2.2 cParse failScorer 0 [] dbM itW rfl

/-- Claim C8: across every sequence of cycles the articles sequence is
append-only — the prior sequence is a prefix of the new one, its length is
non-decreasing, and every previously persisted entry remains at its original
position. -/
theorem c8__articles_append_only :
    ∀ (inps : List (Option CycleIn)) (db : DbRecord),
      db.articles <+: (runCycles inps db).articles ∧
      db.articles.length ≤ (runCycles inps db).articles.length ∧
      (∀ i, i < db.articles.length →
        (runCycles inps db).articles[i]? = db.articles[i]?) := by
  intro inps db
  have hp := runCycles_articles_grow inps db
  refine ⟨hp, hp.length_le, ?_⟩
  intro i hi
  obtain ⟨t, htl⟩ := hp
  rw [← htl, List.getElem?_append, if_pos hi]

theorem c8__witness :
    (runCycles [none] dbW).articles[0]? = dbW.articles[0]? :=
  (c8__articles_append_only [none] dbW).2.2 0 (by decide)

end Worker
